import Mathlib

set_option maxRecDepth 100000

/-!
# A shallow embedding of `myshell.c`

The shell reads a line, splits it into tokens (`parseInput`), looks for one of
the operator tokens `&&`, `##`, `>` (`contains`) and hands the token vector to
one of four executors.  The embedding keeps the control flow of each C function
and makes the operating system explicit:

* the answers of the operating system (does `fork` succeed, does `chdir`
  succeed, ...) are read from an `Env`;
* what the shell process does to the outside is appended to a trace of
  `Event`s kept in a `World`, together with the working directory and the
  number of children that have not been reaped yet;
* what a freshly forked child does before it is replaced by the program (or
  fails to be) is the list of `ChildStep`s carried by the `forked` event;
* a write outside one of the fixed-size arrays `args[64]`, `cmds[20][50]`,
  `pids[20]`, `cmd[50]` is undefined behaviour in C and is the result `fault`.

A NULL-terminated `char **` is a `List String` (the entries before the NULL).
-/

namespace MyShell

/-! ## Operating system interface -/

/-- The two signals the shell touches. -/
inductive Signal where
  | SIGINT
  | SIGTSTP
deriving DecidableEq

/-- One action of a child process between `fork` and the end of the shell's code in it. -/
inductive ChildStep where
  /-- Models `signal(sig, SIG_DFL)`. -/
  | sigDfl (sig : Signal)
  /-- Models `dup2(fd, STDOUT_FILENO)` where `fd` is the descriptor of `file`. -/
  | dup2Stdout (file : String)
  /-- Models `close(fd)` in the child. -/
  | close (file : String)
  /-- Models `execvp(file, argv)`; `file` is `none` when `argv[0]` is NULL. -/
  | execvp (file : Option String) (argv : List String)
  /-- Models `printf(msg)` in the child. -/
  | print (msg : String)
  /-- Models `exit(0)` in the child. -/
  | exit
deriving DecidableEq

/-- One action of the shell process itself. -/
inductive Event where
  /-- Models `printf(msg)`. -/
  | print (msg : String)
  /-- Models `chdir(path)` and whether it succeeded. -/
  | chdir (path : String) (ok : Bool)
  /-- Models `open(path, O_WRONLY | O_CREAT | O_TRUNC, 0644)` and whether it succeeded. -/
  | openFile (path : String) (ok : Bool)
  /-- Models `close(fd)` in the shell, `fd` being the descriptor of `path`. -/
  | closeFile (path : String)
  /-- Models a `fork()` that returned a negative value: no child exists. -/
  | forkFailed
  /-- Models a `fork()` that created a child; `child` is what the child then does. -/
  | forked (child : List ChildStep)
  /-- Models `wait(NULL)`. -/
  | wait
deriving DecidableEq

/-- The answers of the operating system. -/
structure Env where
  /-- Whether the `n`-th call of `fork` (counted from 0 over the session) creates a child. -/
  forkOk : Nat → Bool
  /-- Whether `chdir(path)` succeeds when the working directory is `cwd`. -/
  chdirOk : (cwd : String) → (path : String) → Bool
  /-- Whether `open(path, O_WRONLY | O_CREAT | O_TRUNC, 0644)` succeeds. -/
  openOk : String → Bool
  /-- Whether `execvp(argv[0], argv)` finds and starts the program. -/
  execOk : List String → Bool

/-- The state of the session as far as the shell code can change it. -/
structure World where
  /-- The working directory, named by the argument of the last successful `chdir`. -/
  cwd : String
  /-- The number of `fork` calls made so far. -/
  forks : Nat
  /-- The number of children created and not yet reaped by a `wait`. -/
  live : Nat
  /-- The actions of the shell process, oldest first. -/
  trace : List Event
deriving DecidableEq

/-- How a piece of shell code ends. -/
inductive Result where
  /-- The function returned to its caller. -/
  | ok (w : World)
  /-- The shell process ended (`exit(0)`, or `break` out of the loop of `main`). -/
  | exited (w : World)
  /-- A write outside a fixed-size array happened. -/
  | fault
deriving DecidableEq

/-- The one error message of the shell. -/
def errMsg : String := "Shell: Incorrect command\n"

/-- The farewell message. -/
def byeMsg : String := "Exiting shell...\n"

/-- Append one event to the trace. -/
def World.emit (w : World) (e : Event) : World :=
  { w with trace := w.trace ++ [e] }

/-- Models `fork()` seen from the shell: the flag tells whether a child was created. -/
def sysFork (env : Env) (child : List ChildStep) (w : World) : Bool × World :=
  if env.forkOk w.forks then
    (true, { w with forks := w.forks + 1, live := w.live + 1,
                    trace := w.trace ++ [Event.forked child] })
  else
    (false, { w with forks := w.forks + 1, trace := w.trace ++ [Event.forkFailed] })

/-- Models `wait(NULL)`: reaps one child when there is one, returns at once otherwise. -/
def sysWait (w : World) : World :=
  { w with live := w.live - 1, trace := w.trace ++ [Event.wait] }

/-- Models `chdir(path)` with the shell's reaction `printf` on failure left to the caller. -/
def sysChdir (env : Env) (path : String) (w : World) : Bool × World :=
  if env.chdirOk w.cwd path then
    (true, { w with cwd := path, trace := w.trace ++ [Event.chdir path true] })
  else
    (false, w.emit (Event.chdir path false))

/-- Whether `execvp(argv[0], argv)` succeeds: never with a NULL file name. -/
def execSucceeds (env : Env) (argv : List String) : Bool :=
  match argv with
  | [] => false
  | _ :: _ => env.execOk argv

/-- The code every child runs: reset both signals, do `pre`, call `execvp`, and
when that returns, print the error message and `exit(0)`. -/
def childCode (env : Env) (pre : List ChildStep) (argv : List String) : List ChildStep :=
  [ChildStep.sigDfl Signal.SIGINT, ChildStep.sigDfl Signal.SIGTSTP] ++ pre ++
    [ChildStep.execvp argv.head? argv] ++
    (if execSucceeds env argv then [] else [ChildStep.print errMsg, ChildStep.exit])

/-! ## `parseInput` (lines 10-23) -/

/-- The result of `parseInput`. -/
inductive Parsed where
  /-- The tokens stored in `args[0..idx)`, with `args[idx] = NULL`. -/
  | ok (args : List String)
  /-- A write to `args[64]` or beyond. -/
  | overflow
  /-- The loop budget of the embedding ran out (it never does: the loop runs once per token). -/
  | timeout
deriving DecidableEq

/-- Models one call of `strtok` with a one-character delimiter on the text that is left:
skip leading delimiters; at the end of the text return NULL; otherwise the token
runs up to the next delimiter, which is overwritten and skipped. -/
def strtok (delim : Char) (s : List Char) : Option (List Char × List Char) :=
  match s.dropWhile (fun c => c == delim) with
  | [] => none
  | c :: t =>
    some ((c :: t).takeWhile (fun x => x != delim),
          ((c :: t).dropWhile (fun x => x != delim)).drop 1)

/-- The `while (tok != NULL)` loop of `parseInput`; `args` holds `args[0..idx)`. -/
def parseLoop : Nat → Option (List Char × List Char) → List String → Parsed
  | _, none, args => if args.length < 64 then Parsed.ok args else Parsed.overflow
  | 0, some _, _ => Parsed.timeout
  | fuel + 1, some (tok, rest), args =>
    if args.length < 64 then parseLoop fuel (strtok ' ' rest) (args ++ [String.mk tok])
    else Parsed.overflow

/-- Models `parseInput`: the loop runs at most once per character of the line. -/
def parseInput (input : List Char) : Parsed :=
  parseLoop input.length (strtok ' ' input) []

/-! ## `contains` (lines 26-30) -/

/-- Models `contains`: 1 when some entry compares equal to `sym`, else 0. -/
def contains : List String → String → Nat
  | [], _ => 0
  | a :: rest, sym => if a = sym then 1 else contains rest sym

/-! ## `executeCommand` (lines 33-69) -/

/-- Models `executeCommand`. -/
def executeCommand (env : Env) (args : List String) (w : World) : Result :=
  match args with
  | [] => Result.ok w
  | cmd :: rest =>
    if cmd = "cd" then
      match rest with
      | [] => Result.ok (w.emit (Event.print errMsg))
      | path :: _ =>
        match sysChdir env path w with
        | (true, w1) => Result.ok w1
        | (false, w1) => Result.ok (w1.emit (Event.print errMsg))
    else if cmd = "exit" then
      Result.exited (w.emit (Event.print byeMsg))
    else
      match sysFork env (childCode env [] args) w with
      | (false, w1) => Result.ok (w1.emit (Event.print errMsg))
      | (true, w1) => Result.ok (sysWait w1)

/-! ## `executeParallelCommands` (lines 72-104) -/

/-- The partition loop: `done` holds the finished rows `cmds[0..cIdx)`, `cur` holds
`cmds[cIdx][0..aIdx)`.  Every step, and the code after the loop, writes
`cmds[cIdx][aIdx]`. -/
def parPartition : List String → List (List String) → List String →
    Option (List (List String))
  | [], done, cur =>
    if done.length < 20 ∧ cur.length < 50 then some (done ++ [cur]) else none
  | a :: rest, done, cur =>
    if done.length < 20 ∧ cur.length < 50 then
      if a = "&&" then parPartition rest (done ++ [cur]) []
      else parPartition rest done (cur ++ [a])
    else none

/-- The launch loop: `cmds` are the rows `j, j+1, ..., total-1`; each step writes `pids[j]`. -/
def parLaunch (env : Env) : List (List String) → Nat → World → Result
  | [], _, w => Result.ok w
  | c :: cs, j, w =>
    if j < 20 then parLaunch env cs (j + 1) (sysFork env (childCode env [] c) w).2
    else Result.fault

/-- The final loop: `total` calls of `wait(NULL)`. -/
def waitAll : Nat → World → World
  | 0, w => w
  | n + 1, w => waitAll n (sysWait w)

/-- Models `executeParallelCommands`. -/
def executeParallelCommands (env : Env) (args : List String) (w : World) : Result :=
  match parPartition args [] [] with
  | none => Result.fault
  | some cmds =>
    match parLaunch env cmds 0 w with
    | Result.ok w1 => Result.ok (waitAll cmds.length w1)
    | r => r

/-! ## `executeSequentialCommands` (lines 107-125) -/

/-- The loop of `executeSequentialCommands` and the code after it; `cmd` holds
`cmd[0..idx)`. -/
def seqLoop (env : Env) : List String → List String → World → Result
  | [], cmd, w =>
    if cmd.length < 50 then
      if 0 < cmd.length then executeCommand env cmd w else Result.ok w
    else Result.fault
  | a :: rest, cmd, w =>
    if a = "##" then
      if cmd.length < 50 then
        match executeCommand env cmd w with
        | Result.ok w1 => seqLoop env rest [] w1
        | r => r
      else Result.fault
    else
      if cmd.length < 50 then seqLoop env rest (cmd ++ [a]) w
      else Result.fault

/-- Models `executeSequentialCommands`. -/
def executeSequentialCommands (env : Env) (args : List String) (w : World) : Result :=
  seqLoop env args [] w

/-! ## `executeCommandRedirection` (lines 128-170) -/

/-- The search loop: the entries before the first `>` (where NULL is written) and
the entry after it (`outfile`, NULL when nothing follows or no `>` is found). -/
def splitRedirect : List String → List String × Option String
  | [] => ([], none)
  | a :: rest =>
    if a = ">" then ([], rest.head?)
    else ((a :: (splitRedirect rest).1), (splitRedirect rest).2)

/-- Models `executeCommandRedirection`. -/
def executeCommandRedirection (env : Env) (args : List String) (w : World) : Result :=
  match (splitRedirect args).2 with
  | none => Result.ok (w.emit (Event.print errMsg))
  | some outfile =>
    if env.openOk outfile then
      let w1 := w.emit (Event.openFile outfile true)
      let argv := (splitRedirect args).1
      match sysFork env
          (childCode env [ChildStep.dup2Stdout outfile, ChildStep.close outfile] argv) w1 with
      | (_, w2) => Result.ok (sysWait (w2.emit (Event.closeFile outfile)))
    else
      Result.ok ((w.emit (Event.openFile outfile false)).emit (Event.print errMsg))

/-! ## `main` (lines 196-226, one turn of the loop after `getline` succeeded) -/

/-- Lines 197-198: drop one trailing newline. -/
def chomp (line : List Char) : List Char :=
  if line.getLast? = some '\n' then line.dropLast else line

/-- Lines 214-222: the dispatch on the operator tokens. -/
def dispatch (env : Env) (args : List String) (w : World) : Result :=
  if contains args "&&" ≠ 0 then executeParallelCommands env args w
  else if contains args "##" ≠ 0 then executeSequentialCommands env args w
  else if contains args ">" ≠ 0 then executeCommandRedirection env args w
  else executeCommand env args w

/-- One turn of the loop of `main` on a line that `getline` delivered. -/
def shellStep (env : Env) (line : List Char) (w : World) : Result :=
  if chomp line = [] then Result.ok w
  else if chomp line = "exit".toList then Result.exited (w.emit (Event.print byeMsg))
  else
    match parseInput (chomp line) with
    | Parsed.ok args => dispatch env args w
    | _ => Result.fault


/-! ## Specification-level definitions

These do not come from the C source: they say, in terms of list splitting, what
the loops of the shell are compared with. -/

/-- The non-empty pieces of `line` between the characters satisfying `isSep`, in order. -/
def piecesOn (isSep : Char → Bool) (line : List Char) : List String :=
  ((line.splitOnP isSep).filter (fun p => !p.isEmpty)).map String.mk

/-- Splitting on runs of the space character only. -/
def spaceTokens (line : List Char) : List String :=
  piecesOn (fun c => c == ' ') line

/-- Splitting on runs of whitespace (space, tab, carriage return, newline). -/
def whitespaceTokens (line : List Char) : List String :=
  piecesOn Char.isWhitespace line

/-- The runs of tokens between the occurrences of `sep`, empty runs included. -/
def segments (sep : String) (args : List String) : List (List String) :=
  args.splitOn sep

/-- The runs of `segments` that hold at least one token. -/
def nonEmptySegments (sep : String) (args : List String) : List (List String) :=
  (segments sep args).filter (fun s => !s.isEmpty)

/-- Put the tokens already collected in front of the first run of `segs`. -/
def glue (cur : List String) (segs : List (List String)) : List (List String) :=
  segs.modifyHead (fun s => cur ++ s)

/-- The fork attempts of a parallel line, one per command vector, in order: the
`j`-th attempt is the fork call number `n + j` of the session. -/
def launchEvents (env : Env) : List (List String) → Nat → List Event
  | [], _ => []
  | c :: cs, n =>
    (if env.forkOk n then Event.forked (childCode env [] c) else Event.forkFailed) ::
      launchEvents env cs (n + 1)

/-- How many of the fork attempts of `launchEvents` create a child. -/
def createdCount (env : Env) : List (List String) → Nat → Nat
  | [], _ => 0
  | _ :: cs, n => (if env.forkOk n then 1 else 0) + createdCount env cs (n + 1)

/-- What one command of a sequence adds to the trace, and the working directory
and fork counter it leaves: `cd` calls `chdir` and reports a missing path or a
failed change; any other command is one fork attempt, followed by the wait for
the child, or by the error message when no child could be created. -/
def commandEvents (env : Env) (cwd : String) (n : Nat) :
    List String → List Event × String × Nat
  | [] => ([], cwd, n)
  | cmd :: rest =>
    if cmd = "cd" then
      match rest with
      | [] => ([Event.print errMsg], cwd, n)
      | path :: _ =>
        if env.chdirOk cwd path then ([Event.chdir path true], path, n)
        else ([Event.chdir path false, Event.print errMsg], cwd, n)
    else if env.forkOk n then
      ([Event.forked (childCode env [] (cmd :: rest)), Event.wait], cwd, n + 1)
    else ([Event.forkFailed, Event.print errMsg], cwd, n + 1)

/-- The trace of a sequence of commands run one after the other. -/
def sequenceEvents (env : Env) : List (List String) → String → Nat → List Event
  | [], _, _ => []
  | c :: cs, cwd, n =>
    (commandEvents env cwd n c).1 ++
      sequenceEvents env cs (commandEvents env cwd n c).2.1 (commandEvents env cwd n c).2.2

/-- Run `executeCommand` on each command vector in turn, each call returning
before the next one starts; a call that ends the process ends the run. -/
def runSegments (env : Env) : List (List String) → World → Result
  | [], w => Result.ok w
  | c :: cs, w =>
    match executeCommand env c w with
    | Result.ok w1 => runSegments env cs w1
    | r => r

/-- An operating system in which `fork`, `chdir` and `open` always succeed and
`execvp` finds the programs `ls`, `pwd`, `echo` and `sleep` only. -/
def demoEnv : Env where
  forkOk := fun _ => true
  chdirOk := fun _ _ => true
  openOk := fun _ => true
  execOk := fun argv => ["ls", "pwd", "echo", "sleep"].any (fun p => argv.head? == some p)

/-- An operating system that cannot create any process and has no directory to change to. -/
def noForkEnv : Env where
  forkOk := fun _ => false
  chdirOk := fun _ _ => false
  openOk := fun _ => true
  execOk := fun _ => true

/-- A fresh session in the root directory. -/
def startWorld : World where
  cwd := "/"
  forks := 0
  live := 0
  trace := []

/-- Whether an event is a fork that created a child. -/
def Event.isForked : Event → Bool
  | Event.forked _ => true
  | _ => false

/-! ## Lemmas about the loops -/

theorem splitOnP_takeWhile (p : Char → Bool) (s : List Char) :
    s.splitOnP p = s.takeWhile (fun x => !p x) ::
      (match s.dropWhile (fun x => !p x) with
       | [] => []
       | _ :: t => t.splitOnP p) := by
  induction s with
  | nil => simp [List.splitOnP_nil]
  | cons c cs ih =>
    rw [List.splitOnP_cons]
    by_cases h : p c = true
    · simp [h]
    · simp only [h, Bool.false_eq_true, if_false]
      rw [ih]
      simp [List.takeWhile_cons, List.dropWhile_cons, h, List.modifyHead]

theorem piecesOn_nil (p : Char → Bool) : piecesOn p [] = [] := by
  simp [piecesOn, List.splitOnP_nil]

theorem piecesOn_cons_sep (p : Char → Bool) (c : Char) (cs : List Char) (h : p c = true) :
    piecesOn p (c :: cs) = piecesOn p cs := by
  simp [piecesOn, List.splitOnP_cons, h]

theorem piecesOn_cons_tok (p : Char → Bool) (c : Char) (cs : List Char) (h : p c = false) :
    piecesOn p (c :: cs) =
      String.mk ((c :: cs).takeWhile (fun x => !p x)) ::
        piecesOn p (((c :: cs).dropWhile (fun x => !p x)).drop 1) := by
  unfold piecesOn
  rw [splitOnP_takeWhile p (c :: cs)]
  simp only [List.takeWhile_cons, List.dropWhile_cons, h, Bool.not_false, if_true]
  cases hd : cs.dropWhile (fun x => !p x) with
  | nil => simp [List.splitOnP_nil]
  | cons d t => simp

theorem strtok_spec (s : List Char) :
    spaceTokens s =
      (match strtok ' ' s with
       | none => []
       | some (tok, rest) => String.mk tok :: spaceTokens rest) := by
  induction s with
  | nil => simp [spaceTokens, piecesOn_nil, strtok]
  | cons c cs ih =>
    by_cases h : c = ' '
    · subst h
      have e : strtok ' ' (' ' :: cs) = strtok ' ' cs := by simp [strtok]
      rw [e, ← ih]
      exact piecesOn_cons_sep _ _ _ (by simp)
    · have hb : (c == ' ') = false := by simpa using h
      have e : strtok ' ' (c :: cs) =
          some ((c :: cs).takeWhile (fun x => x != ' '),
                ((c :: cs).dropWhile (fun x => x != ' ')).drop 1) := by
        simp [strtok, List.dropWhile_cons, hb]
      rw [e]
      have := piecesOn_cons_tok (fun x => x == ' ') c cs hb
      simpa [spaceTokens, bne] using this

theorem strtok_rest_length (s tok rest : List Char) (h : strtok ' ' s = some (tok, rest)) :
    rest.length < s.length := by
  induction s with
  | nil => simp [strtok] at h
  | cons c cs ih =>
    by_cases hc : c = ' '
    · subst hc
      have e : strtok ' ' (' ' :: cs) = strtok ' ' cs := by simp [strtok]
      rw [e] at h
      have := ih h
      simp only [List.length_cons]; omega
    · have hb : (c == ' ') = false := by simpa using hc
      have e : strtok ' ' (c :: cs) =
          some ((c :: cs).takeWhile (fun x => x != ' '),
                ((c :: cs).dropWhile (fun x => x != ' ')).drop 1) := by
        simp [strtok, List.dropWhile_cons, hb]
      rw [e] at h
      simp only [Option.some.injEq, Prod.mk.injEq] at h
      have hd : (c :: cs).dropWhile (fun x => x != ' ') = cs.dropWhile (fun x => x != ' ') := by
        simp [List.dropWhile_cons, bne, hb]
      rw [hd] at h
      have h2 : (cs.dropWhile (fun x => x != ' ')).length ≤ cs.length :=
        (List.dropWhile_suffix _).length_le
      rw [← h.2]
      simp only [List.length_drop, List.length_cons]
      omega

theorem parseLoop_spec (fuel : Nat) (s : List Char) (acc : List String)
    (hf : s.length ≤ fuel) :
    parseLoop fuel (strtok ' ' s) acc =
      if acc.length + (spaceTokens s).length < 64 then Parsed.ok (acc ++ spaceTokens s)
      else Parsed.overflow := by
  induction fuel generalizing s acc with
  | zero =>
    have hs : s = [] := List.length_eq_zero.mp (Nat.le_zero.mp hf)
    subst hs
    simp [strtok, parseLoop, spaceTokens, piecesOn_nil]
  | succ n ih =>
    rw [strtok_spec s]
    cases hk : strtok ' ' s with
    | none => simp [parseLoop]
    | some pr =>
      obtain ⟨tok, rest⟩ := pr
      have hl := strtok_rest_length s tok rest hk
      simp only [parseLoop]
      by_cases hlt : acc.length < 64
      · rw [if_pos hlt, ih rest (acc ++ [String.mk tok]) (by omega)]
        simp only [List.length_append, List.length_cons, List.length_nil, List.append_assoc,
          List.singleton_append]
        have : acc.length + 1 + (spaceTokens rest).length
            = acc.length + ((spaceTokens rest).length + 1) := by omega
        rw [this]
      · rw [if_neg hlt, if_neg (by simp only [List.length_cons]; omega)]

theorem parseInput_spec (line : List Char) :
    parseInput line =
      if (spaceTokens line).length < 64 then Parsed.ok (spaceTokens line)
      else Parsed.overflow := by
  have := parseLoop_spec line.length line [] (Nat.le_refl _)
  simpa [parseInput] using this

example : spaceTokens "a\tb  c".toList = ["a\tb", "c"] := by decide

theorem segments_nil (sep : String) : segments sep [] = [[]] := by
  simp [segments, List.splitOn, List.splitOnP_nil]

theorem segments_ne_nil (sep : String) (args : List String) : segments sep args ≠ [] := by
  simp [segments, List.splitOn, List.splitOnP_ne_nil]

theorem segments_cons_sep (sep : String) (rest : List String) :
    segments sep (sep :: rest) = [] :: segments sep rest := by
  simp [segments, List.splitOn, List.splitOnP_cons]

theorem segments_cons_tok (sep a : String) (rest : List String) (h : a ≠ sep) :
    segments sep (a :: rest) = glue [a] (segments sep rest) := by
  simp [segments, List.splitOn, List.splitOnP_cons, h, glue]

theorem glue_nil_left (segs : List (List String)) : glue [] segs = segs := by
  cases segs <;> simp [glue, List.modifyHead]

theorem glue_glue (cur a : List String) (segs : List (List String)) :
    glue cur (glue a segs) = glue (cur ++ a) segs := by
  cases segs <;> simp [glue, List.modifyHead]

theorem glue_segments_nil (sep : String) (cur : List String) :
    glue cur (segments sep []) = [cur] := by
  simp [segments_nil, glue, List.modifyHead]

theorem glue_segments_sep (sep : String) (cur rest : List String) :
    glue cur (segments sep (sep :: rest)) = cur :: segments sep rest := by
  simp [segments_cons_sep, glue, List.modifyHead]

theorem glue_segments_tok (sep a : String) (cur rest : List String) (h : a ≠ sep) :
    glue cur (segments sep (a :: rest)) = glue (cur ++ [a]) (segments sep rest) := by
  rw [segments_cons_tok sep a rest h, glue_glue]

theorem length_glue (cur : List String) (segs : List (List String)) :
    (glue cur segs).length = segs.length := by
  cases segs <;> simp [glue, List.modifyHead]

theorem length_segments (sep : String) (args : List String) :
    (segments sep args).length = args.count sep + 1 := by
  induction args with
  | nil => simp [segments_nil]
  | cons a rest ih =>
    by_cases h : a = sep
    · subst h; simp [segments_cons_sep, ih]
    · rw [segments_cons_tok sep a rest h, length_glue, ih]
      simp [List.count_cons, h]

theorem parPartition_ok (args : List String) (done : List (List String)) (cur : List String)
    (hn : done.length + (segments "&&" args).length ≤ 20)
    (hs : ∀ s ∈ glue cur (segments "&&" args), s.length ≤ 49) :
    parPartition args done cur = some (done ++ glue cur (segments "&&" args)) := by
  induction args generalizing done cur with
  | nil =>
    rw [glue_segments_nil] at hs ⊢
    have h1 := hs cur (by simp)
    simp only [segments_nil, List.length_singleton] at hn
    simp only [parPartition]
    rw [if_pos ⟨by omega, by omega⟩]
  | cons a rest ih =>
    simp only [parPartition]
    by_cases h : a = "&&"
    · subst h
      rw [glue_segments_sep] at hs ⊢
      rw [segments_cons_sep] at hn
      simp only [List.length_cons] at hn
      have h1 := hs cur (by simp)
      rw [if_pos ⟨by omega, by omega⟩, if_pos rfl]
      rw [ih (done ++ [cur]) [] (by simp only [List.length_append, List.length_singleton]; omega)
        (by rw [glue_nil_left]; intro s hm; exact hs s (List.mem_cons_of_mem _ hm))]
      simp [glue_nil_left]
    · rw [glue_segments_tok _ _ _ _ h] at hs ⊢
      rw [segments_cons_tok _ _ _ h, length_glue] at hn
      have hne := segments_ne_nil "&&" rest
      have hpos : 0 < (segments "&&" rest).length := List.length_pos.mpr hne
      have hcur : cur.length < 50 := by
        cases hseg : segments "&&" rest with
        | nil => exact absurd hseg hne
        | cons s ss =>
          have := hs ((cur ++ [a]) ++ s) (by simp [hseg, glue, List.modifyHead])
          simp only [List.length_append, List.length_singleton] at this
          omega
      rw [if_pos ⟨by omega, hcur⟩, if_neg h]
      exact ih done (cur ++ [a]) hn hs

theorem parPartition_fault (args : List String) (done : List (List String)) (cur : List String)
    (h : 20 < done.length + (segments "&&" args).length ∨
      ∃ s ∈ glue cur (segments "&&" args), 50 ≤ s.length) :
    parPartition args done cur = none := by
  induction args generalizing done cur with
  | nil =>
    rw [glue_segments_nil] at h
    simp only [segments_nil, List.length_singleton, List.mem_singleton, exists_eq_left] at h
    simp only [parPartition]
    rw [if_neg (by omega)]
  | cons a rest ih =>
    simp only [parPartition]
    by_cases hg : done.length < 20 ∧ cur.length < 50
    · rw [if_pos hg]
      by_cases ha : a = "&&"
      · subst ha
        rw [if_pos rfl]
        apply ih
        rw [glue_segments_sep, segments_cons_sep] at h
        rw [glue_nil_left]
        rcases h with h | ⟨s, hm, hl⟩
        · left; simp only [List.length_cons, List.length_append, List.length_singleton] at h ⊢
          omega
        · right
          rcases List.mem_cons.mp hm with e | hm
          · subst e; omega
          · exact ⟨s, hm, hl⟩
      · rw [if_neg ha]
        apply ih
        rw [glue_segments_tok _ _ _ _ ha] at h
        rw [segments_cons_tok _ _ _ ha, length_glue] at h
        exact h
    · rw [if_neg hg]

theorem length_launchEvents (env : Env) (cmds : List (List String)) (n : Nat) :
    (launchEvents env cmds n).length = cmds.length := by
  induction cmds generalizing n with
  | nil => rfl
  | cons c cs ih => simp [launchEvents, ih]

theorem createdCount_le (env : Env) (cmds : List (List String)) (n : Nat) :
    createdCount env cmds n ≤ cmds.length := by
  induction cmds generalizing n with
  | nil => simp [createdCount]
  | cons c cs ih =>
    have := ih (n + 1)
    simp only [createdCount, List.length_cons]
    split <;> omega

theorem parLaunch_ok (env : Env) (cmds : List (List String)) (j : Nat) (w : World)
    (hj : j + cmds.length ≤ 20) :
    parLaunch env cmds j w =
      Result.ok { cwd := w.cwd, forks := w.forks + cmds.length,
                  live := w.live + createdCount env cmds w.forks,
                  trace := w.trace ++ launchEvents env cmds w.forks } := by
  induction cmds generalizing j w with
  | nil => simp [parLaunch, launchEvents, createdCount]
  | cons c cs ih =>
    simp only [List.length_cons] at hj
    simp only [parLaunch]
    rw [if_pos (by omega), ih (j + 1) _ (by omega)]
    by_cases hf : env.forkOk w.forks = true
    · simp [sysFork, hf, launchEvents, createdCount]; omega
    · simp [sysFork, hf, launchEvents, createdCount]; omega

theorem waitAll_eq (n : Nat) (w : World) :
    waitAll n w =
      { cwd := w.cwd, forks := w.forks, live := w.live - n,
        trace := w.trace ++ List.replicate n Event.wait } := by
  induction n generalizing w with
  | zero => simp [waitAll]
  | succ k ih =>
    simp only [waitAll]
    rw [ih]
    simp only [sysWait, List.append_assoc, List.singleton_append, List.replicate_succ]
    congr 1
    omega

theorem executeParallel_ok (env : Env) (args : List String) (w : World)
    (h19 : args.count "&&" ≤ 19) (h49 : ∀ s ∈ segments "&&" args, s.length ≤ 49) :
    executeParallelCommands env args w =
      Result.ok
        { cwd := w.cwd
          forks := w.forks + (segments "&&" args).length
          live := w.live + createdCount env (segments "&&" args) w.forks
                    - (segments "&&" args).length
          trace := w.trace ++ launchEvents env (segments "&&" args) w.forks ++
                    List.replicate (segments "&&" args).length Event.wait } := by
  have hlen := length_segments "&&" args
  have hp := parPartition_ok args [] [] (by simp only [List.length_nil]; omega)
    (by rw [glue_nil_left]; exact h49)
  rw [glue_nil_left, List.nil_append] at hp
  simp only [executeParallelCommands, hp]
  rw [parLaunch_ok env _ 0 w (by omega)]
  simp only [waitAll_eq]

theorem executeParallel_fault (env : Env) (args : List String) (w : World)
    (h : 20 ≤ args.count "&&" ∨ ∃ s ∈ segments "&&" args, 50 ≤ s.length) :
    executeParallelCommands env args w = Result.fault := by
  have hlen := length_segments "&&" args
  have hp := parPartition_fault args [] [] (by
    rw [glue_nil_left]
    rcases h with h | h
    · left; simp only [List.length_nil]; omega
    · right; exact h)
  simp only [executeParallelCommands, hp]

theorem executeCommand_not_exit (env : Env) (c : List String) (w : World)
    (hc : c.head? ≠ some "exit") :
    executeCommand env c w =
      Result.ok { cwd := (commandEvents env w.cwd w.forks c).2.1
                  forks := (commandEvents env w.cwd w.forks c).2.2
                  live := w.live
                  trace := w.trace ++ (commandEvents env w.cwd w.forks c).1 } := by
  cases c with
  | nil => simp [executeCommand, commandEvents]
  | cons cmd rest =>
    have hne : cmd ≠ "exit" := by simpa using hc
    by_cases hcd : cmd = "cd"
    · subst hcd
      cases rest with
      | nil => simp [executeCommand, commandEvents, World.emit]
      | cons p tl =>
        by_cases hk : env.chdirOk w.cwd p = true
        · simp [executeCommand, commandEvents, sysChdir, hk]
        · simp [executeCommand, commandEvents, sysChdir, hk, World.emit]
    · by_cases hf : env.forkOk w.forks = true
      · simp [executeCommand, commandEvents, hcd, hne, sysFork, hf, sysWait]
      · simp [executeCommand, commandEvents, hcd, hne, sysFork, hf, World.emit]

theorem executeCommand_exit (env : Env) (rest : List String) (w : World) :
    executeCommand env ("exit" :: rest) w = Result.exited (w.emit (Event.print byeMsg)) := by
  simp [executeCommand]

theorem runSegments_not_exit (env : Env) (segs : List (List String)) (w : World)
    (hx : ∀ s ∈ segs, s.head? ≠ some "exit") :
    ∃ w1, runSegments env segs w = Result.ok w1 ∧
      w1.trace = w.trace ++ sequenceEvents env segs w.cwd w.forks ∧
      w1.live = w.live ∧
      ∀ (more : List (List String)),
        runSegments env (segs ++ more) w = runSegments env more w1 ∧
        sequenceEvents env (segs ++ more) w.cwd w.forks =
          sequenceEvents env segs w.cwd w.forks ++ sequenceEvents env more w1.cwd w1.forks := by
  induction segs generalizing w with
  | nil => exact ⟨w, by simp [runSegments, sequenceEvents]⟩
  | cons c cs ih =>
    have hc := executeCommand_not_exit env c w (hx c (by simp))
    obtain ⟨w1, h1, h2, h3, h4⟩ := ih _ (fun s hs => hx s (List.mem_cons_of_mem _ hs))
    refine ⟨w1, ?_, ?_, ?_, ?_⟩
    · simp only [runSegments, hc]; exact h1
    · rw [h2]; simp [sequenceEvents]
    · rw [h3]
    · intro more
      obtain ⟨h5, h6⟩ := h4 more
      constructor
      · simp only [List.cons_append, runSegments, hc]; exact h5
      · simp only [List.cons_append, sequenceEvents, List.append_assoc]
        exact congrArg _ h6

theorem runSegments_single (env : Env) (c : List String) (w : World) :
    runSegments env [c] w = executeCommand env c w := by
  simp only [runSegments]
  cases executeCommand env c w <;> rfl

theorem runSegments_filter_cons (env : Env) (c : List String) (segs : List (List String))
    (w : World) :
    runSegments env ((c :: segs).filter (fun s => !s.isEmpty)) w =
      (match executeCommand env c w with
       | Result.ok w1 => runSegments env (segs.filter (fun s => !s.isEmpty)) w1
       | r => r) := by
  cases c with
  | nil => simp [executeCommand]
  | cons a t => simp [runSegments]

theorem seqLoop_ok (env : Env) (args cmd : List String) (w : World)
    (hs : ∀ s ∈ glue cmd (segments "##" args), s.length ≤ 49) :
    seqLoop env args cmd w =
      runSegments env ((glue cmd (segments "##" args)).filter (fun s => !s.isEmpty)) w := by
  induction args generalizing cmd w with
  | nil =>
    rw [glue_segments_nil] at hs ⊢
    have h1 := hs cmd (by simp)
    simp only [seqLoop]
    rw [if_pos (by omega)]
    cases cmd with
    | nil => simp [runSegments]
    | cons a t => simp [runSegments_single]
  | cons a rest ih =>
    simp only [seqLoop]
    by_cases h : a = "##"
    · subst h
      rw [glue_segments_sep] at hs ⊢
      have h1 := hs cmd (by simp)
      rw [if_pos rfl, if_pos (by omega), runSegments_filter_cons]
      cases hc : executeCommand env cmd w with
      | ok w1 =>
        simp only []
        rw [ih [] w1 (by rw [glue_nil_left]; intro s hm; exact hs s (List.mem_cons_of_mem _ hm)),
          glue_nil_left]
      | exited w1 => rfl
      | fault => rfl
    · rw [glue_segments_tok _ _ _ _ h] at hs ⊢
      have hne := segments_ne_nil "##" rest
      have hcur : cmd.length < 50 := by
        cases hseg : segments "##" rest with
        | nil => exact absurd hseg hne
        | cons s ss =>
          have := hs ((cmd ++ [a]) ++ s) (by simp [hseg, glue, List.modifyHead])
          simp only [List.length_append, List.length_singleton] at this
          omega
      rw [if_neg h, if_pos hcur]
      exact ih (cmd ++ [a]) w hs

theorem seqLoop_fault (env : Env) (args cmd : List String) (w : World)
    (pre : List (List String)) (long : List String) (post : List (List String))
    (hsplit : glue cmd (segments "##" args) = pre ++ long :: post)
    (hlong : 50 ≤ long.length)
    (hx : ∀ s ∈ pre, s.head? ≠ some "exit") :
    seqLoop env args cmd w = Result.fault := by
  induction args generalizing cmd w pre with
  | nil =>
    rw [glue_segments_nil] at hsplit
    have hcmd : 50 ≤ cmd.length := by
      cases pre with
      | nil =>
        simp only [List.nil_append, List.cons.injEq] at hsplit
        rw [hsplit.1]; exact hlong
      | cons p ps =>
        simp only [List.cons_append, List.cons.injEq] at hsplit
        have := hsplit.2
        simp at this
    simp only [seqLoop]
    rw [if_neg (by omega)]
  | cons a rest ih =>
    simp only [seqLoop]
    by_cases hlen : cmd.length < 50
    · by_cases h : a = "##"
      · subst h
        rw [glue_segments_sep] at hsplit
        rw [if_pos rfl, if_pos hlen]
        cases pre with
        | nil =>
          simp only [List.nil_append, List.cons.injEq] at hsplit
          rw [hsplit.1] at hlen; omega
        | cons p ps =>
          simp only [List.cons_append, List.cons.injEq] at hsplit
          have hp : cmd.head? ≠ some "exit" := by
            rw [hsplit.1]; exact hx p (by simp)
          rw [executeCommand_not_exit env cmd w hp]
          simp only []
          exact ih [] _ ps (by rw [glue_nil_left]; exact hsplit.2)
            (fun s hm => hx s (List.mem_cons_of_mem _ hm))
      · rw [if_neg h, if_pos hlen]
        rw [glue_segments_tok _ _ _ _ h] at hsplit
        exact ih (cmd ++ [a]) w pre hsplit hx
    · by_cases h : a = "##"
      · rw [if_pos h, if_neg hlen]
      · rw [if_neg h, if_neg hlen]

theorem contains_ne_zero (args : List String) (sym : String) :
    contains args sym ≠ 0 ↔ sym ∈ args := by
  induction args with
  | nil => simp [contains]
  | cons a rest ih =>
    by_cases h : a = sym
    · simp [contains, h]
    · have h2 : ¬ sym = a := fun e => h e.symm
      simp [contains, h, h2, ih]

theorem contains_eq_one (args : List String) (sym : String) :
    contains args sym = 1 ↔ sym ∈ args := by
  induction args with
  | nil => simp [contains]
  | cons a rest ih =>
    by_cases h : a = sym
    · simp [contains, h]
    · have h2 : ¬ sym = a := fun e => h e.symm
      simp [contains, h, h2, ih]

theorem segments_of_not_mem (sep : String) (args : List String) (h : sep ∉ args) :
    segments sep args = [args] := by
  unfold segments List.splitOn
  apply List.splitOnP_eq_single
  intro x hx hb
  have : x = sep := by simpa using hb
  exact h (this ▸ hx)

theorem splitRedirect_eq (args : List String) :
    splitRedirect args =
      (args.takeWhile (fun t => t != ">"),
        ((args.dropWhile (fun t => t != ">")).drop 1).head?) := by
  induction args with
  | nil => simp [splitRedirect]
  | cons a rest ih =>
    by_cases h : a = ">"
    · subst h; simp [splitRedirect]
    · simp [splitRedirect, h, ih, List.takeWhile_cons, List.dropWhile_cons]

theorem createdCount_eq (env : Env) (cmds : List (List String)) (n : Nat) :
    createdCount env cmds n = (launchEvents env cmds n).countP Event.isForked := by
  induction cmds generalizing n with
  | nil => rfl
  | cons c cs ih =>
    simp only [createdCount, launchEvents, ih (n + 1)]
    by_cases hf : env.forkOk n = true
    · simp [hf, Event.isForked, List.countP_cons]; omega
    · simp [hf, Event.isForked, List.countP_cons]

theorem launchEvents_shape (env : Env) (cmds : List (List String)) (n : Nat) :
    ∀ e ∈ launchEvents env cmds n, e = Event.forkFailed ∨ ∃ c, e = Event.forked c := by
  induction cmds generalizing n with
  | nil => simp [launchEvents]
  | cons c cs ih =>
    intro e he
    simp only [launchEvents, List.mem_cons] at he
    rcases he with he | he
    · by_cases hf : env.forkOk n = true
      · right; exact ⟨_, by simpa [hf] using he⟩
      · left; simpa [hf] using he
    · exact ih _ e he

theorem executeCommand_ne_fault (env : Env) (c : List String) (w : World) :
    executeCommand env c w ≠ Result.fault := by
  by_cases hc : c.head? = some "exit"
  · cases c with
    | nil => simp at hc
    | cons a t =>
      have : a = "exit" := by simpa using hc
      subst this
      simp [executeCommand_exit]
  · simp [executeCommand_not_exit env c w hc]

theorem runSegments_ne_fault (env : Env) (segs : List (List String)) (w : World) :
    runSegments env segs w ≠ Result.fault := by
  induction segs generalizing w with
  | nil => simp [runSegments]
  | cons c cs ih =>
    simp only [runSegments]
    cases hc : executeCommand env c w with
    | ok w1 => exact ih w1
    | exited w1 => simp
    | fault => exact absurd hc (executeCommand_ne_fault env c w)

theorem executeSequential_ne_fault (env : Env) (args : List String) (w : World)
    (hcap : ∀ s ∈ segments "##" args, s.length ≤ 49) :
    executeSequentialCommands env args w ≠ Result.fault := by
  have h := seqLoop_ok env args [] w (by rw [glue_nil_left]; exact hcap)
  rw [executeSequentialCommands, h]
  exact runSegments_ne_fault _ _ _

theorem executeRedirection_ne_fault (env : Env) (args : List String) (w : World) :
    executeCommandRedirection env args w ≠ Result.fault := by
  unfold executeCommandRedirection
  cases (splitRedirect args).2 with
  | none => simp
  | some f =>
    by_cases ho : env.openOk f = true
    · simp [ho]
    · simp [ho]

theorem tokens_of_trivial_line (l : List Char) (h : l = [] ∨ l = "exit".toList) :
    (spaceTokens l).length ≤ 1 ∧ "&&" ∉ spaceTokens l ∧ "##" ∉ spaceTokens l := by
  rcases h with h | h
  · subst h; decide
  · subst h; decide

theorem shellStep_eq_dispatch (env : Env) (line : List Char) (w : World)
    (h0 : chomp line ≠ []) (h1 : chomp line ≠ "exit".toList) :
    shellStep env line w =
      if (spaceTokens (chomp line)).length < 64 then
        dispatch env (spaceTokens (chomp line)) w
      else Result.fault := by
  unfold shellStep
  rw [if_neg h0, if_neg h1, parseInput_spec]
  by_cases h : (spaceTokens (chomp line)).length < 64
  · rw [if_pos h, if_pos h]
  · rw [if_neg h, if_neg h]

/-! ## C1: the tokenizer -/

/-- C1, as stated, fails: the line `ls<TAB>-l` is not empty and holds no operator
token; splitting it on runs of whitespace gives the two tokens `ls` and `-l`,
but `parseInput` returns the single token `ls<TAB>-l`, because it splits on the
space character only. -/
theorem parseInput_keeps_tab :
    "ls\t-l".toList ≠ [] ∧
    (∀ t ∈ whitespaceTokens "ls\t-l".toList, t ≠ "&&" ∧ t ≠ "##" ∧ t ≠ ">") ∧
    whitespaceTokens "ls\t-l".toList = ["ls", "-l"] ∧
    parseInput "ls\t-l".toList = Parsed.ok ["ls\t-l"] ∧
    parseInput "ls\t-l".toList ≠ Parsed.ok (whitespaceTokens "ls\t-l".toList) := by
  decide

/-- C1, amended: for every line with at most 63 space-separated tokens (the
capacity of `args`), `parseInput` returns exactly the non-empty pieces obtained
by splitting the line on runs of the space character, in their original order;
no token is empty. -/
theorem parseInput_splits_on_spaces (line : List Char)
    (hcap : (spaceTokens line).length ≤ 63) :
    parseInput line = Parsed.ok (spaceTokens line) ∧ ∀ t ∈ spaceTokens line, t ≠ "" := by
  constructor
  · rw [parseInput_spec, if_pos (by omega)]
  · intro t ht
    simp only [spaceTokens, piecesOn, List.mem_map, List.mem_filter] at ht
    obtain ⟨p, ⟨_, hp⟩, rfl⟩ := ht
    intro h
    have hd : p = [] := by
      have := congrArg String.data h
      simpa using this
    simp [hd] at hp

theorem parseInput_splits_on_spaces_witness :
    (spaceTokens " ls  -l a\tb ".toList).length ≤ 63 ∧
    parseInput " ls  -l a\tb ".toList = Parsed.ok ["ls", "-l", "a\tb"] :=
  ⟨by decide, (parseInput_splits_on_spaces " ls  -l a\tb ".toList (by decide)).1⟩

/-! ## C2: the dispatcher -/

/-- C2: `contains args sym` is 1 exactly when some token of `args` equals `sym`
(and 0 otherwise), and `dispatch` takes the first matching branch in the order
`&&` (parallel), `##` (sequential), `>` (redirect), none (single); a token
that only has an operator inside it, as `a&&b`, is a single command. -/
theorem dispatch_first_match (env : Env) (args : List String) (w : World) (sym : String) :
    (contains args sym = 1 ↔ sym ∈ args) ∧
    (contains args sym = 0 ↔ sym ∉ args) ∧
    dispatch env args w =
      (if "&&" ∈ args then executeParallelCommands env args w
       else if "##" ∈ args then executeSequentialCommands env args w
       else if ">" ∈ args then executeCommandRedirection env args w
       else executeCommand env args w) ∧
    dispatch env ["a&&b"] w = executeCommand env ["a&&b"] w := by
  refine ⟨contains_eq_one args sym, ?_, ?_, ?_⟩
  · have := contains_ne_zero args sym
    constructor
    · intro h hm; exact (this.mpr hm) h
    · intro h; by_contra h0; exact h (this.mp h0)
  · simp only [dispatch, contains_ne_zero]
  · simp only [dispatch, contains_ne_zero]
    rw [if_neg (by decide), if_neg (by decide), if_neg (by decide)]

/-! ## C3: empty command vectors -/

/-- C3, the failing input: on the line `ls &&` the parallel executor forks twice;
the second child is handed the empty command vector and calls `execvp` with a
NULL file name, fails and prints the error message.  The sequential executor
on `ls ##` launches `ls` only. -/
theorem parallel_launches_empty_vector :
    shellStep demoEnv "ls &&\n".toList startWorld =
      Result.ok
        { cwd := "/", forks := 2, live := 0,
          trace :=
            [Event.forked [ChildStep.sigDfl Signal.SIGINT, ChildStep.sigDfl Signal.SIGTSTP,
                ChildStep.execvp (some "ls") ["ls"]],
             Event.forked [ChildStep.sigDfl Signal.SIGINT, ChildStep.sigDfl Signal.SIGTSTP,
                ChildStep.execvp none [], ChildStep.print errMsg, ChildStep.exit],
             Event.wait, Event.wait] } ∧
    shellStep demoEnv "ls ##\n".toList startWorld =
      Result.ok
        { cwd := "/", forks := 1, live := 0,
          trace :=
            [Event.forked [ChildStep.sigDfl Signal.SIGINT, ChildStep.sigDfl Signal.SIGTSTP,
                ChildStep.execvp (some "ls") ["ls"]],
             Event.wait] } := by
  decide

/-! ## C4: redirection -/

/-- C4: `executeCommandRedirection` splits at the first `>`.  When no token
follows it, the only effect is the error message: no file is opened and no
process is created.  When a token follows, that token is the file that is
opened, and the child (the fork succeeding) sends its standard output there and
calls `execvp` on exactly the tokens before the first `>`. -/
theorem redirection_splits_at_first (env : Env) (args : List String) (w : World) :
    executeCommandRedirection env args w =
      (match (args.dropWhile (fun t => t != ">")).drop 1 with
       | [] => Result.ok { w with trace := w.trace ++ [Event.print errMsg] }
       | outfile :: _ =>
         if env.openOk outfile then
           Result.ok
             { cwd := w.cwd
               forks := w.forks + 1
               live := w.live + (if env.forkOk w.forks then 1 else 0) - 1
               trace := w.trace ++
                 [Event.openFile outfile true,
                  (if env.forkOk w.forks then
                     Event.forked (childCode env
                       [ChildStep.dup2Stdout outfile, ChildStep.close outfile]
                       (args.takeWhile (fun t => t != ">")))
                   else Event.forkFailed),
                  Event.closeFile outfile,
                  Event.wait] }
         else
           Result.ok { w with trace := w.trace ++
             [Event.openFile outfile false, Event.print errMsg] }) := by
  unfold executeCommandRedirection
  rw [splitRedirect_eq]
  cases (args.dropWhile (fun t => t != ">")).drop 1 with
  | nil => simp [World.emit]
  | cons f tl =>
    simp only [List.head?_cons]
    by_cases ho : env.openOk f = true
    · by_cases hf : env.forkOk w.forks = true
      · simp [ho, hf, sysFork, sysWait, World.emit]
      · simp [ho, hf, sysFork, sysWait, World.emit]
    · simp [ho, World.emit]

/-! ## C5: the built-in exit -/

/-- C5, as stated, fails: on the line `exit && ls` the first command vector
starts with `exit`, yet the session goes on (the result is `ok`) and `ls` is
launched after it; on `exit > f` the session goes on as well.  In both
executors `exit` is handed to `execvp` in a child. -/
theorem exit_not_builtin_in_parallel_or_redirect :
    shellStep demoEnv "exit && ls\n".toList startWorld =
      Result.ok
        { cwd := "/", forks := 2, live := 0,
          trace :=
            [Event.forked [ChildStep.sigDfl Signal.SIGINT, ChildStep.sigDfl Signal.SIGTSTP,
                ChildStep.execvp (some "exit") ["exit"], ChildStep.print errMsg,
                ChildStep.exit],
             Event.forked [ChildStep.sigDfl Signal.SIGINT, ChildStep.sigDfl Signal.SIGTSTP,
                ChildStep.execvp (some "ls") ["ls"]],
             Event.wait, Event.wait] } ∧
    shellStep demoEnv "exit > f\n".toList startWorld =
      Result.ok
        { cwd := "/", forks := 1, live := 0,
          trace :=
            [Event.openFile "f" true,
             Event.forked [ChildStep.sigDfl Signal.SIGINT, ChildStep.sigDfl Signal.SIGTSTP,
                ChildStep.dup2Stdout "f", ChildStep.close "f",
                ChildStep.execvp (some "exit") ["exit"], ChildStep.print errMsg,
                ChildStep.exit],
             Event.closeFile "f", Event.wait] } := by
  decide

/-- C5, amended: take a line whose tokens `args` hold no `&&` and either hold
`##` or hold no `>` (so it is run as a Sequential or as a Single command), and
let `exit :: rest` be the first of its non-empty `##`-separated command vectors
that starts with `exit`, after the vectors `pre`.  Then the turn ends the
session: the commands of `pre` have run in order, the farewell message is the
last event, and nothing of the vectors `post` is run. -/
theorem exit_ends_single_and_sequential (env : Env) (line : List Char) (args : List String)
    (w : World) (pre : List (List String)) (rest : List String) (post : List (List String))
    (hparse : parseInput (chomp line) = Parsed.ok args)
    (hpar : "&&" ∉ args)
    (hsel : "##" ∈ args ∨ ">" ∉ args)
    (hsegs : nonEmptySegments "##" args = pre ++ ("exit" :: rest) :: post)
    (hpre : ∀ s ∈ pre, s.head? ≠ some "exit")
    (hcap : "##" ∈ args → ∀ s ∈ segments "##" args, s.length ≤ 49) :
    ∃ w1, shellStep env line w = Result.exited w1 ∧
      w1.trace = w.trace ++ sequenceEvents env pre w.cwd w.forks ++ [Event.print byeMsg] := by
  -- what running the non-empty command vectors does
  have hrun : ∃ w1, runSegments env (nonEmptySegments "##" args) w = Result.exited w1 ∧
      w1.trace = w.trace ++ sequenceEvents env pre w.cwd w.forks ++ [Event.print byeMsg] := by
    obtain ⟨w1, _, h2, _, h4⟩ := runSegments_not_exit env pre w hpre
    refine ⟨w1.emit (Event.print byeMsg), ?_, ?_⟩
    · rw [hsegs, (h4 _).1]
      simp [runSegments, executeCommand_exit]
    · simp [World.emit, h2]
  unfold shellStep
  by_cases h0 : chomp line = []
  · rw [h0] at hparse
    have : args = [] := by
      have h : parseInput [] = Parsed.ok [] := by decide
      rw [h] at hparse
      exact (Parsed.ok.inj hparse).symm
    subst this
    have hnil : nonEmptySegments "##" [] = [] := by decide
    rw [hnil] at hsegs
    simp at hsegs
  · rw [if_neg h0]
    by_cases h1 : chomp line = "exit".toList
    · rw [if_pos h1]
      rw [h1] at hparse
      have : args = ["exit"] := by
        have h : parseInput "exit".toList = Parsed.ok ["exit"] := by decide
        rw [h] at hparse
        exact (Parsed.ok.inj hparse).symm
      subst this
      have hseg1 : nonEmptySegments "##" ["exit"] = [["exit"]] := by decide
      rw [hseg1] at hsegs
      have hp : pre = [] := by
        cases pre with
        | nil => rfl
        | cons p ps =>
          have := congrArg List.length hsegs
          simp at this
      subst hp
      exact ⟨w.emit (Event.print byeMsg), rfl, by simp [World.emit, sequenceEvents]⟩
    · rw [if_neg h1, hparse]
      simp only [dispatch, contains_ne_zero]
      rw [if_neg hpar]
      by_cases hseq : "##" ∈ args
      · rw [if_pos hseq]
        have := seqLoop_ok env args [] w (by rw [glue_nil_left]; exact hcap hseq)
        rw [glue_nil_left] at this
        rw [executeSequentialCommands, this]
        exact hrun
      · have hgt : ">" ∉ args := hsel.resolve_left hseq
        rw [if_neg hseq, if_neg hgt]
        have hs : segments "##" args = [args] := segments_of_not_mem _ _ hseq
        cases args with
        | nil =>
          simp [nonEmptySegments, hs] at hsegs
        | cons a t =>
          have hn : nonEmptySegments "##" (a :: t) = [a :: t] := by
            simp [nonEmptySegments, hs]
          rw [hn, runSegments_single] at hrun
          exact hrun

theorem exit_ends_single_and_sequential_witness :
    ∃ w1, shellStep demoEnv "cd /tmp ## exit now ## ls\n".toList startWorld = Result.exited w1 ∧
      w1.trace = startWorld.trace ++
        sequenceEvents demoEnv [["cd", "/tmp"]] startWorld.cwd startWorld.forks ++
        [Event.print byeMsg] :=
  exit_ends_single_and_sequential demoEnv "cd /tmp ## exit now ## ls\n".toList
    ["cd", "/tmp", "##", "exit", "now", "##", "ls"] startWorld
    [["cd", "/tmp"]] ["now"] [["ls"]]
    (by decide) (by decide) (by decide) (by decide) (by decide) (by decide)

/-! ## C6: the built-in cd -/

/-- C6: a command vector that starts with `cd` makes `executeCommand` return
normally without any fork (the fork counter and the number of children are
unchanged and no fork event is traced).  Without a path, or when `chdir`
fails, the error message is printed once and the working directory is
unchanged; when `chdir` succeeds the working directory is the given path and
nothing is printed. -/
theorem cd_builtin (env : Env) (rest : List String) (w : World) :
    executeCommand env ("cd" :: rest) w =
      Result.ok
        (match rest with
         | [] => { w with trace := w.trace ++ [Event.print errMsg] }
         | path :: _ =>
           if env.chdirOk w.cwd path then
             { w with cwd := path, trace := w.trace ++ [Event.chdir path true] }
           else
             { w with trace := w.trace ++ [Event.chdir path false, Event.print errMsg] }) := by
  cases rest with
  | nil => simp [executeCommand, World.emit]
  | cons p tl =>
    by_cases hk : env.chdirOk w.cwd p = true
    · simp [executeCommand, sysChdir, hk]
    · simp [executeCommand, sysChdir, hk, World.emit]

/-! ## C7: a failing fork -/

/-- C7, the failing inputs: when `fork` fails, the Single executor prints the
error message, but the Parallel executor (`ls && pwd`) and the Redirect
executor (`ls > f`) print nothing: the trace holds the failed forks followed
only by waits (and the close of the file).  No executor does any child work. -/
theorem fork_failure_is_silent_in_parallel_and_redirect :
    shellStep noForkEnv "ls\n".toList startWorld =
      Result.ok
        { cwd := "/", forks := 1, live := 0,
          trace := [Event.forkFailed, Event.print errMsg] } ∧
    shellStep noForkEnv "ls && pwd\n".toList startWorld =
      Result.ok
        { cwd := "/", forks := 2, live := 0,
          trace := [Event.forkFailed, Event.forkFailed, Event.wait, Event.wait] } ∧
    shellStep noForkEnv "ls > f\n".toList startWorld =
      Result.ok
        { cwd := "/", forks := 1, live := 0,
          trace := [Event.openFile "f" true, Event.forkFailed, Event.closeFile "f",
                    Event.wait] } := by
  decide

/-! ## C8: the sequential executor -/

/-- C8: for every token vector whose `##`-separated segments fit `cmd[50]`,
`executeSequentialCommands` runs `executeCommand` on the non-empty segments
`c1 .. cN` in order, each call (the fork and its `wait`) returning before the
next one begins.  Whatever the operating system answers (a program that cannot
be started, a fork that fails, a `cd` that fails), no command other than the
built-in `exit` stops the run: when no segment is the built-in `exit` the
executor returns normally and the trace grows by the events of `c1`, then those
of `c2`, ..., then those of `cN`, the events of an external command being the
fork immediately followed by its wait (or the failed fork followed by the error
message). -/
theorem sequential_runs_in_order (env : Env) (args : List String) (w : World)
    (hcap : ∀ s ∈ segments "##" args, s.length ≤ 49) :
    executeSequentialCommands env args w = runSegments env (nonEmptySegments "##" args) w ∧
    ((∀ s ∈ nonEmptySegments "##" args, s.head? ≠ some "exit") →
      ∃ w1, executeSequentialCommands env args w = Result.ok w1 ∧
        w1.trace = w.trace ++ sequenceEvents env (nonEmptySegments "##" args) w.cwd w.forks ∧
        w1.live = w.live) := by
  have h := seqLoop_ok env args [] w (by rw [glue_nil_left]; exact hcap)
  rw [glue_nil_left] at h
  have h2 : executeSequentialCommands env args w =
      runSegments env (nonEmptySegments "##" args) w := h
  refine ⟨h2, fun hx => ?_⟩
  obtain ⟨w1, h3, h4, h5, _⟩ := runSegments_not_exit env (nonEmptySegments "##" args) w hx
  exact ⟨w1, h2.trans h3, h4, h5⟩

theorem sequential_runs_in_order_witness :
    (∀ s ∈ segments "##" ["cd", "##", "nosuch", "##", "##", "echo", "b"], s.length ≤ 49) ∧
    ∃ w1, executeSequentialCommands demoEnv ["cd", "##", "nosuch", "##", "##", "echo", "b"]
        startWorld = Result.ok w1 ∧
      w1.trace =
        [Event.print errMsg,
         Event.forked (childCode demoEnv [] ["nosuch"]), Event.wait,
         Event.forked (childCode demoEnv [] ["echo", "b"]), Event.wait] ∧
      w1.live = 0 :=
  ⟨by decide,
   (sequential_runs_in_order demoEnv ["cd", "##", "nosuch", "##", "##", "echo", "b"] startWorld
      (by decide)).2 (by decide)⟩

/-! ## C9: the parallel executor -/

/-- C9: for every token vector that fits `cmds[20][50]` (at most 19 `&&`, at
most 49 tokens between them), with `N` the number of `&&`-separated segments,
`executeParallelCommands` returns normally and adds to the trace exactly `N`
fork attempts (each a created child or a failed fork, a failure not stopping
the later attempts) followed by exactly `N` waits: every fork comes before
every wait.  The children created are at most `N`, so the `N` waits reap all
of them: the number of unreaped children does not grow. -/
theorem parallel_forks_before_waits (env : Env) (args : List String) (w : World)
    (h19 : args.count "&&" ≤ 19) (h49 : ∀ s ∈ segments "&&" args, s.length ≤ 49) :
    ∃ w1, executeParallelCommands env args w = Result.ok w1 ∧
      w1.trace = w.trace ++ launchEvents env (segments "&&" args) w.forks ++
        List.replicate (segments "&&" args).length Event.wait ∧
      (segments "&&" args).length = args.count "&&" + 1 ∧
      (launchEvents env (segments "&&" args) w.forks).length = (segments "&&" args).length ∧
      (∀ e ∈ launchEvents env (segments "&&" args) w.forks,
        e = Event.forkFailed ∨ ∃ c, e = Event.forked c) ∧
      (launchEvents env (segments "&&" args) w.forks).countP Event.isForked
        ≤ (segments "&&" args).length ∧
      w1.live = w.live + (launchEvents env (segments "&&" args) w.forks).countP Event.isForked
        - (segments "&&" args).length ∧
      w1.live ≤ w.live := by
  have hle := createdCount_le env (segments "&&" args) w.forks
  have heq := createdCount_eq env (segments "&&" args) w.forks
  refine ⟨_, executeParallel_ok env args w h19 h49, rfl, length_segments _ _,
    length_launchEvents _ _ _, launchEvents_shape _ _ _, ?_, ?_, ?_⟩
  · omega
  · simp only [heq]
  · simp only []; omega

theorem parallel_forks_before_waits_witness :
    ∃ w1, executeParallelCommands demoEnv ["sleep", "1", "&&", "exit", "&&", "ls"] startWorld
        = Result.ok w1 ∧
      w1.trace =
        [Event.forked (childCode demoEnv [] ["sleep", "1"]),
         Event.forked (childCode demoEnv [] ["exit"]),
         Event.forked (childCode demoEnv [] ["ls"]),
         Event.wait, Event.wait, Event.wait] ∧
      w1.live = 0 := by
  obtain ⟨w1, h1, h2, _, _, _, _, h3, _⟩ :=
    parallel_forks_before_waits demoEnv ["sleep", "1", "&&", "exit", "&&", "ls"] startWorld
      (by decide) (by decide)
  exact ⟨w1, h1, h2, h3⟩

/-! ## C10: the fixed-size arrays -/

/-- C10, as stated, fails in its tightness half: a segment of 50 tokens does
not always make a write fall outside an array.  The line `exit ## a a ... a`
(50 times `a`) has 52 tokens and a `##`-separated segment of 50 tokens, but the
built-in `exit` ends the process before `cmd[50]` is written; the line
`a a ... a` (50 times `a`, no separator) is one segment of 50 tokens, is run by
`executeCommand` and reaches no array of 50 entries.  Neither turn writes
outside an array. -/
theorem fifty_token_segment_without_overflow :
    (spaceTokens ("exit ## ".toList ++ (List.replicate 50 ['a', ' ']).flatten)).length = 52 ∧
    List.replicate 50 "a" ∈
      segments "##" (spaceTokens ("exit ## ".toList ++ (List.replicate 50 ['a', ' ']).flatten)) ∧
    shellStep demoEnv ("exit ## ".toList ++ (List.replicate 50 ['a', ' ']).flatten) startWorld =
      Result.exited { cwd := "/", forks := 0, live := 0, trace := [Event.print byeMsg] } ∧
    spaceTokens (List.replicate 50 ['a', ' ']).flatten = List.replicate 50 "a" ∧
    segments "##" (spaceTokens (List.replicate 50 ['a', ' ']).flatten) =
      [List.replicate 50 "a"] ∧
    segments "&&" (spaceTokens (List.replicate 50 ['a', ' ']).flatten) =
      [List.replicate 50 "a"] ∧
    shellStep demoEnv (List.replicate 50 ['a', ' ']).flatten startWorld =
      Result.ok
        { cwd := "/", forks := 1, live := 0,
          trace := [Event.forked (childCode demoEnv [] (List.replicate 50 "a")),
                    Event.wait] } := by
  decide

/-- C10, amended.  Safety: `parseInput` stays inside `args[64]` for a line of at
most 63 tokens; `executeParallelCommands` stays inside `cmds[20][50]` and
`pids[20]` when there are at most 19 `&&` and at most 49 tokens in each
`&&`-separated segment; `executeSequentialCommands` stays inside `cmd[50]` when
each `##`-separated segment has at most 49 tokens; hence a whole turn of the
shell does no write outside an array when the line has at most 63 tokens and
the segments of the executor that runs (`&&` when the line holds `&&`, else
`##` when it holds `##`) are within these bounds.  Tightness: every line of 64
tokens or more makes `parseInput` write outside `args`; every line run by
`executeParallelCommands` (it holds `&&`) with 20 `&&` or a `&&`-separated
segment of 50 tokens makes a write fall outside `cmds`; every line run by
`executeSequentialCommands` (no `&&`, some `##`) with a `##`-separated segment
of 50 tokens makes a write fall outside `cmd`, provided no earlier segment
starts with the built-in `exit`, which ends the process before the write.  The
same holds for the two executors taken by themselves on any token vector. -/
theorem buffers_suffice_and_overflow_beyond (env : Env) (line : List Char)
    (args : List String) (w : World) :
    ((spaceTokens line).length ≤ 63 → parseInput line = Parsed.ok (spaceTokens line)) ∧
    (64 ≤ (spaceTokens line).length → parseInput line = Parsed.overflow) ∧
    (args.count "&&" ≤ 19 → (∀ s ∈ segments "&&" args, s.length ≤ 49) →
      executeParallelCommands env args w ≠ Result.fault) ∧
    ((20 ≤ args.count "&&" ∨ ∃ s ∈ segments "&&" args, 50 ≤ s.length) →
      executeParallelCommands env args w = Result.fault) ∧
    ((∀ s ∈ segments "##" args, s.length ≤ 49) →
      executeSequentialCommands env args w ≠ Result.fault) ∧
    (∀ (pre : List (List String)) (long : List String) (post : List (List String)),
      segments "##" args = pre ++ long :: post → 50 ≤ long.length →
      (∀ s ∈ pre, s.head? ≠ some "exit") →
      executeSequentialCommands env args w = Result.fault) ∧
    ((spaceTokens (chomp line)).length ≤ 63 →
      ("&&" ∈ spaceTokens (chomp line) →
        (spaceTokens (chomp line)).count "&&" ≤ 19 ∧
        ∀ s ∈ segments "&&" (spaceTokens (chomp line)), s.length ≤ 49) →
      ("&&" ∉ spaceTokens (chomp line) → "##" ∈ spaceTokens (chomp line) →
        ∀ s ∈ segments "##" (spaceTokens (chomp line)), s.length ≤ 49) →
      shellStep env line w ≠ Result.fault) ∧
    (64 ≤ (spaceTokens (chomp line)).length → shellStep env line w = Result.fault) ∧
    ("&&" ∈ spaceTokens (chomp line) →
      (20 ≤ (spaceTokens (chomp line)).count "&&" ∨
        ∃ s ∈ segments "&&" (spaceTokens (chomp line)), 50 ≤ s.length) →
      shellStep env line w = Result.fault) ∧
    ("&&" ∉ spaceTokens (chomp line) → "##" ∈ spaceTokens (chomp line) →
      ∀ (pre : List (List String)) (long : List String) (post : List (List String)),
        segments "##" (spaceTokens (chomp line)) = pre ++ long :: post → 50 ≤ long.length →
        (∀ s ∈ pre, s.head? ≠ some "exit") →
        shellStep env line w = Result.fault) := by
  have htriv := tokens_of_trivial_line (chomp line)
  refine ⟨?_, ?_, ?_, ?_, ?_, ?_, ?_, ?_, ?_, ?_⟩
  · intro h
    rw [parseInput_spec, if_pos (by omega)]
  · intro h
    rw [parseInput_spec, if_neg (by omega)]
  · intro h19 h49
    rw [executeParallel_ok env args w h19 h49]
    simp
  · exact executeParallel_fault env args w
  · exact executeSequential_ne_fault env args w
  · intro pre long post hsplit hlong hx
    exact seqLoop_fault env args [] w pre long post (by rw [glue_nil_left]; exact hsplit)
      hlong hx
  · intro h63 hpar hseq
    unfold shellStep
    by_cases h0 : chomp line = []
    · rw [if_pos h0]; simp
    · rw [if_neg h0]
      by_cases h1 : chomp line = "exit".toList
      · rw [if_pos h1]; simp
      · rw [if_neg h1, parseInput_spec, if_pos (by omega)]
        simp only [dispatch, contains_ne_zero]
        split_ifs with ha hb hc
        · rw [executeParallel_ok env _ w (hpar ha).1 (hpar ha).2]; simp
        · exact executeSequential_ne_fault env _ w (hseq ha hb)
        · exact executeRedirection_ne_fault env _ w
        · exact executeCommand_ne_fault env _ w
  · intro h64
    have h0 : chomp line ≠ [] := fun h => by have := (htriv (Or.inl h)).1; omega
    have h1 : chomp line ≠ "exit".toList := fun h => by have := (htriv (Or.inr h)).1; omega
    rw [shellStep_eq_dispatch env line w h0 h1, if_neg (by omega)]
  · intro hmem hbig
    have h0 : chomp line ≠ [] := fun h => (htriv (Or.inl h)).2.1 hmem
    have h1 : chomp line ≠ "exit".toList := fun h => (htriv (Or.inr h)).2.1 hmem
    rw [shellStep_eq_dispatch env line w h0 h1]
    by_cases h : (spaceTokens (chomp line)).length < 64
    · rw [if_pos h]
      simp only [dispatch, contains_ne_zero]
      rw [if_pos hmem]
      exact executeParallel_fault env _ w hbig
    · rw [if_neg h]
  · intro hpar hseq pre long post hsplit hlong hx
    have h0 : chomp line ≠ [] := fun h => (htriv (Or.inl h)).2.2 hseq
    have h1 : chomp line ≠ "exit".toList := fun h => (htriv (Or.inr h)).2.2 hseq
    rw [shellStep_eq_dispatch env line w h0 h1]
    by_cases h : (spaceTokens (chomp line)).length < 64
    · rw [if_pos h]
      simp only [dispatch, contains_ne_zero]
      rw [if_neg hpar, if_pos hseq]
      exact seqLoop_fault env _ [] w pre long post (by rw [glue_nil_left]; exact hsplit)
        hlong hx
    · rw [if_neg h]

theorem buffers_suffice_and_overflow_beyond_witness :
    parseInput "ls -l".toList = Parsed.ok ["ls", "-l"] ∧
    parseInput (List.replicate 64 ['a', ' ']).flatten = Parsed.overflow ∧
    executeParallelCommands demoEnv (List.replicate 20 "&&") startWorld = Result.fault ∧
    executeParallelCommands demoEnv (List.replicate 50 "a" ++ ["&&", "b"]) startWorld
      = Result.fault ∧
    executeSequentialCommands demoEnv (["b", "##"] ++ List.replicate 50 "a") startWorld
      = Result.fault ∧
    shellStep demoEnv "ls -l ## pwd\n".toList startWorld ≠ Result.fault ∧
    shellStep demoEnv (List.replicate 64 ['a', ' ']).flatten startWorld = Result.fault ∧
    shellStep demoEnv ("b && ".toList ++ (List.replicate 50 ['a', ' ']).flatten) startWorld
      = Result.fault ∧
    shellStep demoEnv ("b ## ".toList ++ (List.replicate 50 ['a', ' ']).flatten) startWorld
      = Result.fault :=
  ⟨(buffers_suffice_and_overflow_beyond demoEnv "ls -l".toList [] startWorld).1 (by decide),
   (buffers_suffice_and_overflow_beyond demoEnv (List.replicate 64 ['a', ' ']).flatten []
      startWorld).2.1 (by decide),
   (buffers_suffice_and_overflow_beyond demoEnv [] (List.replicate 20 "&&")
      startWorld).2.2.2.1 (Or.inl (by decide)),
   (buffers_suffice_and_overflow_beyond demoEnv [] (List.replicate 50 "a" ++ ["&&", "b"])
      startWorld).2.2.2.1 (Or.inr ⟨List.replicate 50 "a", by decide, by decide⟩),
   (buffers_suffice_and_overflow_beyond demoEnv [] (["b", "##"] ++ List.replicate 50 "a")
      startWorld).2.2.2.2.2.1 [["b"]] (List.replicate 50 "a") [] (by decide) (by decide)
      (by decide),
   (buffers_suffice_and_overflow_beyond demoEnv "ls -l ## pwd\n".toList []
      startWorld).2.2.2.2.2.2.1 (by decide) (by decide) (by decide),
   (buffers_suffice_and_overflow_beyond demoEnv (List.replicate 64 ['a', ' ']).flatten []
      startWorld).2.2.2.2.2.2.2.1 (by decide),
   (buffers_suffice_and_overflow_beyond demoEnv
      ("b && ".toList ++ (List.replicate 50 ['a', ' ']).flatten) []
      startWorld).2.2.2.2.2.2.2.2.1 (by decide)
      (Or.inr ⟨List.replicate 50 "a", by decide, by decide⟩),
   (buffers_suffice_and_overflow_beyond demoEnv
      ("b ## ".toList ++ (List.replicate 50 ['a', ' ']).flatten) []
      startWorld).2.2.2.2.2.2.2.2.2 (by decide) (by decide)
      [["b"]] (List.replicate 50 "a") [] (by decide) (by decide) (by decide)⟩

end MyShell
